import Mathlib

set_option maxRecDepth 40000

/-!
Verification of the LSB-steganography robustness pipeline
(`models/lsb_steganography.js`, `experiments/transforms.js`,
`experiments/metrics.js`, `experiments/runner.js`).

Strings are modelled as lists of character codes (`List ℕ`), raw image
buffers as lists of byte values (`List ℕ`), JavaScript binary strings
("0101…") as `List Bool` (`true` = '1'), and JavaScript numbers as `ℚ`
(all arithmetic in the source stays exact on the inputs considered).
-/

namespace Stego

/-! ## Bit codec (`stringToBinary` / `binaryToString`) -/

/-- Fuel-indexed base-`b` digit expansion, least significant digit first.
Each step divides by `b ≥ 2`, so `n` units of fuel always suffice.
(Structural recursion so the definition evaluates inside the kernel.) -/
def toDigitsRevFuel (b : ℕ) : ℕ → ℕ → List ℕ
  | _, 0 => []
  | 0, _ + 1 => []
  | f + 1, n + 1 => ((n + 1) % b) :: toDigitsRevFuel b f ((n + 1) / b)

/-- Base-`b` digits of `n`, least significant first (`[]` for `0`). -/
def toDigitsRev (b n : ℕ) : List ℕ := toDigitsRevFuel b n n

/-- `n.toString(2)` as a list of bits, most significant first.
JavaScript renders `0` as `"0"`, i.e. one `'0'` character. -/
def natToBits (n : ℕ) : List Bool :=
  if n = 0 then [false] else ((toDigitsRev 2 n).map (fun d => decide (d = 1))).reverse

theorem toDigitsRevFuel_nils (b f : ℕ) : toDigitsRevFuel b f 0 = [] := by cases f <;> rfl

theorem toDigitsRevFuel_congr (b : ℕ) (hb : 2 ≤ b) (f1 : ℕ) :
    ∀ (f2 n : ℕ), n ≤ f1 → n ≤ f2 → toDigitsRevFuel b f1 n = toDigitsRevFuel b f2 n := by
  induction f1 with
  | zero =>
    intro f2 n h1 _
    have hn : n = 0 := by omega
    subst hn
    rw [toDigitsRevFuel_nils, toDigitsRevFuel_nils]
  | succ g ih =>
    intro f2 n h1 h2
    cases n with
    | zero => rw [toDigitsRevFuel_nils, toDigitsRevFuel_nils]
    | succ m =>
      cases f2 with
      | zero => omega
      | succ g2 =>
        show ((m + 1) % b) :: toDigitsRevFuel b g ((m + 1) / b) =
          ((m + 1) % b) :: toDigitsRevFuel b g2 ((m + 1) / b)
        congr 1
        have hd : (m + 1) / b < m + 1 := Nat.div_lt_self (by omega) (by omega)
        exact ih g2 ((m + 1) / b) (by omega) (by omega)

theorem toDigitsRev_eq (b n : ℕ) (hb : 2 ≤ b) (hn : n ≠ 0) :
    toDigitsRev b n = (n % b) :: toDigitsRev b (n / b) := by
  obtain ⟨m, rfl⟩ : ∃ m, n = m + 1 := ⟨n - 1, by omega⟩
  have hstep : toDigitsRevFuel b (m + 1) (m + 1) =
      ((m + 1) % b) :: toDigitsRevFuel b m ((m + 1) / b) := rfl
  show toDigitsRevFuel b (m + 1) (m + 1) = ((m + 1) % b) :: toDigitsRev b ((m + 1) / b)
  rw [hstep]
  congr 1
  have hd : (m + 1) / b < m + 1 := Nat.div_lt_self (by omega) (by omega)
  exact toDigitsRevFuel_congr b hb m ((m + 1) / b) ((m + 1) / b) (by omega) le_rfl

theorem toDigitsRevFuel_lt (b : ℕ) (hb : 2 ≤ b) (f : ℕ) :
    ∀ (n d : ℕ), d ∈ toDigitsRevFuel b f n → d < b := by
  induction f with
  | zero =>
    intro n d hd
    cases n <;> simp [toDigitsRevFuel_nils, toDigitsRevFuel] at hd
  | succ g ih =>
    intro n d hd
    cases n with
    | zero => simp [toDigitsRevFuel_nils] at hd
    | succ m =>
      rcases List.mem_cons.mp hd with h | h
      · subst h
        exact Nat.mod_lt _ (by omega)
      · exact ih ((m + 1) / b) d h

theorem toDigitsRevFuel_length (b : ℕ) (hb : 2 ≤ b) (k : ℕ) :
    ∀ (f n : ℕ), n < b ^ k → (toDigitsRevFuel b f n).length ≤ k := by
  induction k with
  | zero =>
    intro f n h
    have hn : n = 0 := by
      simp only [pow_zero] at h
      omega
    subst hn
    rw [toDigitsRevFuel_nils]
    simp
  | succ j ih =>
    intro f n h
    cases n with
    | zero =>
      rw [toDigitsRevFuel_nils]
      simp
    | succ m =>
      cases f with
      | zero => simp [toDigitsRevFuel]
      | succ g =>
        show (((m + 1) % b) :: toDigitsRevFuel b g ((m + 1) / b)).length ≤ j + 1
        simp only [List.length_cons]
        have hdiv : (m + 1) / b < b ^ j := by
          rw [Nat.div_lt_iff_lt_mul (by omega : 0 < b)]
          calc m + 1 < b ^ (j + 1) := h
          _ = b ^ j * b := by ring
        have := ih g ((m + 1) / b) hdiv
        omega

/-- `n.toString(2).padStart(8, '0')`: left-pad the binary rendering with
`'0'` characters to at least 8 bits.  Character codes above 255 produce
more than 8 bits and are *not* truncated. -/
def charBits (c : ℕ) : List Bool :=
  List.replicate (8 - (natToBits c).length) false ++ natToBits c

/-- `stringToBinary` (lsb_steganography.js:19-23): concatenate every
character's `charCodeAt(0).toString(2).padStart(8,'0')`. -/
def stringToBinary (s : List ℕ) : List Bool :=
  s.flatMap charBits

/-- `parseInt(bin, 2)`: value of a bit string read most significant first. -/
def bitsToNat (bs : List Bool) : ℕ :=
  bs.foldl (fun a b => 2 * a + cond b 1 0) 0

/-- Fuel-indexed helper for `chunks8`: each chunk consumes at least one
element, so `l.length` units of fuel always suffice.  (Structural
recursion is used so the definition evaluates inside the kernel.) -/
def chunks8Fuel : ℕ → List Bool → List (List Bool)
  | _, [] => []
  | 0, _ :: _ => []
  | f + 1, a :: t => ((a :: t).take 8) :: chunks8Fuel f ((a :: t).drop 8)

/-- `binary.match(/.{1,8}/g)`: split into chunks of 8, a shorter trailing
chunk (1–7 bits) is kept.  The empty string gives no chunks. -/
def chunks8 (l : List Bool) : List (List Bool) := chunks8Fuel l.length l

theorem chunks8Fuel_nils (f : ℕ) : chunks8Fuel f [] = [] := by cases f <;> rfl

theorem chunks8Fuel_congr (f1 : ℕ) :
    ∀ (f2 : ℕ) (l : List Bool), l.length ≤ f1 → l.length ≤ f2 →
      chunks8Fuel f1 l = chunks8Fuel f2 l := by
  induction f1 with
  | zero =>
    intro f2 l h1 _
    have hl : l = [] := by
      cases l
      · rfl
      · simp at h1
    subst hl
    rw [chunks8Fuel_nils, chunks8Fuel_nils]
  | succ g ih =>
    intro f2 l h1 h2
    cases l with
    | nil => rw [chunks8Fuel_nils, chunks8Fuel_nils]
    | cons a t =>
      cases f2 with
      | zero => simp at h2
      | succ g2 =>
        show ((a :: t).take 8) :: chunks8Fuel g ((a :: t).drop 8) =
          ((a :: t).take 8) :: chunks8Fuel g2 ((a :: t).drop 8)
        simp only [List.length_cons] at h1 h2
        congr 1
        apply ih
        · simp only [List.length_drop, List.length_cons]
          omega
        · simp only [List.length_drop, List.length_cons]
          omega

theorem chunks8_eq (l : List Bool) :
    chunks8 l = if l.isEmpty then [] else l.take 8 :: chunks8 (l.drop 8) := by
  cases l with
  | nil => rfl
  | cons a t =>
    have hstep : chunks8Fuel (a :: t).length (a :: t) =
        (a :: t).take 8 :: chunks8Fuel t.length ((a :: t).drop 8) := rfl
    show chunks8Fuel (a :: t).length (a :: t) = (a :: t).take 8 :: chunks8 ((a :: t).drop 8)
    rw [hstep]
    congr 1
    apply chunks8Fuel_congr
    · simp only [List.length_drop, List.length_cons]
      omega
    · exact le_rfl

/-- `binaryToString` (lsb_steganography.js:30-33): chunk into (up to) 8-bit
groups and map each through `String.fromCharCode(parseInt(bin, 2))`. -/
def binaryToString (bits : List Bool) : List ℕ :=
  (chunks8 bits).map bitsToNat

/-! ### Codec round-trip lemmas -/

theorem bitsToNat_append (xs ys : List Bool) :
    bitsToNat (xs ++ ys) = ys.foldl (fun a b => 2 * a + cond b 1 0) (bitsToNat xs) := by
  simp [bitsToNat, List.foldl_append]

theorem bitsToNat_replicate_false_append (k : ℕ) (l : List Bool) :
    bitsToNat (List.replicate k false ++ l) = bitsToNat l := by
  induction k with
  | zero => simp
  | succ n ih => simpa [List.replicate_succ, bitsToNat] using ih

theorem bitsToNat_reverse_digits (n : ℕ) :
    bitsToNat (((toDigitsRev 2 n).map (fun d => decide (d = 1))).reverse) = n := by
  induction n using Nat.strong_induction_on with
  | _ n ih =>
    rcases Nat.eq_zero_or_pos n with h0 | hpos
    · simp [h0, toDigitsRev, toDigitsRevFuel_nils, bitsToNat]
    · rw [toDigitsRev_eq 2 n (by norm_num) (by omega)]
      simp only [List.map_cons, List.reverse_cons]
      rw [bitsToNat_append]
      simp only [List.foldl_cons, List.foldl_nil]
      rw [ih (n / 2) (Nat.div_lt_self hpos (by norm_num))]
      have h2 : n % 2 < 2 := Nat.mod_lt _ (by norm_num)
      have : cond (decide (n % 2 = 1)) 1 0 = n % 2 := by
        interval_cases h : (n % 2) <;> simp
      rw [this]
      omega

theorem bitsToNat_natToBits (n : ℕ) : bitsToNat (natToBits n) = n := by
  unfold natToBits
  split
  · simp [bitsToNat, *]
  · exact bitsToNat_reverse_digits n

theorem bitsToNat_charBits (c : ℕ) : bitsToNat (charBits c) = c := by
  unfold charBits
  rw [bitsToNat_replicate_false_append, bitsToNat_natToBits]

theorem natToBits_length_le (c : ℕ) (h : c < 256) : (natToBits c).length ≤ 8 := by
  unfold natToBits
  split
  · simp
  · simp only [List.length_reverse, List.length_map]
    exact toDigitsRevFuel_length 2 (by norm_num) 8 c c (by norm_num; omega)

theorem charBits_length (c : ℕ) (h : c < 256) : (charBits c).length = 8 := by
  have hle := natToBits_length_le c h
  simp [charBits]
  omega

theorem chunks8_nil : chunks8 [] = [] := by
  rw [chunks8_eq]
  simp

theorem chunks8_append8 (l r : List Bool) (h : l.length = 8) :
    chunks8 (l ++ r) = l :: chunks8 r := by
  rw [chunks8_eq]
  have hne : ((l ++ r).isEmpty) = false := by
    have : l ≠ [] := by intro hl; rw [hl] at h; simp at h
    simp [List.isEmpty_iff, this]
  rw [hne]
  simp only [Bool.false_eq_true, if_false]
  congr 1
  · rw [List.take_append_eq_append_take, List.take_of_length_le (by omega), h]
    simp
  · congr 1
    rw [List.drop_append_eq_append_drop, List.drop_of_length_le (by omega), h]
    simp

theorem stringToBinary_cons (c : ℕ) (s : List ℕ) :
    stringToBinary (c :: s) = charBits c ++ stringToBinary s := by
  simp [stringToBinary]

theorem stringToBinary_append (s t : List ℕ) :
    stringToBinary (s ++ t) = stringToBinary s ++ stringToBinary t := by
  simp [stringToBinary]

theorem stringToBinary_length (s : List ℕ) (h : ∀ c ∈ s, c < 256) :
    (stringToBinary s).length = 8 * s.length := by
  induction s with
  | nil => simp [stringToBinary]
  | cons c t ih =>
    rw [stringToBinary_cons]
    simp only [List.length_append, List.length_cons]
    rw [charBits_length c (h c (by simp)), ih (fun x hx => h x (by simp [hx]))]
    ring

theorem binaryToString_stringToBinary (s : List ℕ) (h : ∀ c ∈ s, c < 256) :
    binaryToString (stringToBinary s) = s := by
  induction s with
  | nil => simp [stringToBinary, binaryToString, chunks8_nil]
  | cons c t ih =>
    rw [stringToBinary_cons]
    unfold binaryToString
    rw [chunks8_append8 _ _ (charBits_length c (h c (by simp)))]
    simp only [List.map_cons, bitsToNat_charBits]
    congr 1
    exact ih (fun x hx => h x (by simp [hx]))

/-! ## JavaScript `parseInt` (decimal/hex prefix parsing, as applied to the
16-character length header in `extractMessage`) -/

/-- ASCII decimal digit. -/
def isDigit (c : ℕ) : Bool := decide (48 ≤ c) && decide (c ≤ 57)

/-- ASCII hexadecimal digit. -/
def isHexDigit (c : ℕ) : Bool :=
  (decide (48 ≤ c) && decide (c ≤ 57)) || (decide (65 ≤ c) && decide (c ≤ 70)) ||
    (decide (97 ≤ c) && decide (c ≤ 102))

/-- Value of a hexadecimal digit character. -/
def hexVal (c : ℕ) : ℕ := if c ≤ 57 then c - 48 else if c ≤ 70 then c - 55 else c - 87

/-- ASCII whitespace skipped by `parseInt`. -/
def isSpace (c : ℕ) : Bool :=
  decide (c = 32) || decide (c = 9) || decide (c = 10) || decide (c = 11) ||
    decide (c = 12) || decide (c = 13)

/-- Value of a list of decimal digit characters, most significant first. -/
def digitsVal (cs : List ℕ) : ℕ := cs.foldl (fun a c => 10 * a + (c - 48)) 0

/-- Longest decimal-digit prefix; `none` (NaN) when it is empty. -/
def parseDecPrefix (cs : List ℕ) : Option ℕ :=
  let ds := cs.takeWhile isDigit
  if ds.isEmpty then none else some (digitsVal ds)

/-- Longest hexadecimal-digit prefix; `none` (NaN) when it is empty. -/
def parseHexPrefix (cs : List ℕ) : Option ℕ :=
  let ds := cs.takeWhile isHexDigit
  if ds.isEmpty then none else some (ds.foldl (fun a c => 16 * a + hexVal c) 0)

/-- Unsigned part of `parseInt` with radix auto-detection: a `0x`/`0X`
prefix switches to hexadecimal, otherwise decimal. -/
def parseUnsigned (cs : List ℕ) : Option ℕ :=
  if 2 ≤ cs.length ∧ cs.getD 0 0 = 48 ∧ (cs.getD 1 0 = 120 ∨ cs.getD 1 0 = 88)
  then parseHexPrefix (cs.drop 2) else parseDecPrefix cs

/-- `parseInt(str)` on a list of character codes: skip whitespace, optional
sign, then the longest radix-prefix; `none` models `NaN`. -/
def parseIntJS (cs : List ℕ) : Option ℤ :=
  match cs.dropWhile isSpace with
  | [] => none
  | c :: rest =>
    if c = 43 then (parseUnsigned rest).map Int.ofNat
    else if c = 45 then (parseUnsigned rest).map (fun n => -(n : ℤ))
    else (parseUnsigned (c :: rest)).map Int.ofNat

/-! ## LSB embedding (`embedMessage`, lsb_steganography.js:41-98) -/

/-- `(byte & 0xFE) | bit` (lsb_steganography.js:71). -/
def setLSB (byte : ℕ) (b : Bool) : ℕ := (byte &&& 254) ||| (cond b 1 0)

/-- `(byte & 1)` as a bit (lsb_steganography.js:123,152). -/
def getLSB (byte : ℕ) : Bool := decide (byte &&& 1 = 1)

/-- Overwrite the least-significant bits of the leading bytes with the
payload bits; remaining bytes are untouched. -/
def embedBits : List ℕ → List Bool → List ℕ
  | data, [] => data
  | [], _ => []
  | d :: ds, b :: bs => setLSB d b :: embedBits ds bs

/-- `message.length.toString()`: decimal digit characters. -/
def natToDecChars (n : ℕ) : List ℕ :=
  if n = 0 then [48] else ((toDigitsRev 10 n).map (· + 48)).reverse

/-- `message.length.toString().padStart(16, '0')` (lsb_steganography.js:53). -/
def lengthHeader (n : ℕ) : List ℕ :=
  List.replicate (16 - (natToDecChars n).length) 48 ++ natToDecChars n

/-- Errors raised by the LSB engine. -/
inductive StegoError where
  /-- "Message too long! …" (lsb_steganography.js:59). -/
  | capacityExceeded (requiredBits availableBits : ℕ)
  /-- "Invalid message length detected …" (lsb_steganography.js:136). -/
  | invalidLength
deriving DecidableEq, Repr

/-- `embedMessage` (lsb_steganography.js:41-98) on the raw pixel buffer.
The PNG re-encode/decode pair around the raw buffer is lossless and is
elided: embedding yields the raw stego bytes that extraction reads back. -/
def embedMessage (data : List ℕ) (m : List ℕ) : Except StegoError (List ℕ) :=
  let messageBinary := stringToBinary (lengthHeader m.length ++ m)
  if data.length < messageBinary.length then
    .error (.capacityExceeded messageBinary.length data.length)
  else .ok (embedBits data messageBinary)

/-! ## Extraction (`extractMessage`, lsb_steganography.js:105-227) -/

/-- `data[i] & 1`, where reading past the end of the buffer yields
`undefined` and `undefined & 1 === 0`. -/
def readBit (data : List ℕ) (i : ℕ) : Bool := getLSB (data.getD i 0)

/-- The LSBs of `cnt` consecutive bytes starting at `start`. -/
def extractBitsRange (data : List ℕ) (start cnt : ℕ) : List Bool :=
  (List.range cnt).map (fun j => readBit data (start + j))

/-- Number of printable-ASCII characters (`/[ -~]/`, codes 32–126). -/
def printableCount (m : List ℕ) : ℕ :=
  (m.filter (fun c => decide (32 ≤ c) && decide (c ≤ 126))).length

/-- Hamming distance between two 8-bit patterns (lsb_steganography.js:296-307). -/
def hamming8 (a b : List Bool) : ℕ := ((a.zip b).filter (fun p => p.1 != p.2)).length

/-- Closest printable-ASCII code by Hamming distance: scan codes 32–126,
keeping the first strict improvement over the running best (initial
best distance 8). -/
def hammingSearch (chunk : List Bool) : ℕ × ℕ :=
  (List.range 95).foldl
    (fun best k =>
      let code := 32 + k
      let d := hamming8 (charBits code) chunk
      if d < best.1 then (d, code) else best)
    (8, 0)

/-- One character step of `attemptMessageRecovery` (lsb_steganography.js:281-316):
keep printable characters, substitute the closest printable code when the
distance is ≤ 3 or the output is still empty, else drop the character. -/
def recoverStep (acc : List ℕ) (chunk : List Bool) : List ℕ :=
  if chunk.length = 8 then
    let c := bitsToNat chunk
    if 32 ≤ c ∧ c ≤ 126 then acc ++ [c]
    else
      let best := hammingSearch chunk
      if best.1 ≤ 3 then acc ++ [best.2]
      else if acc.length = 0 then acc ++ [best.2]
      else acc
  else acc

/-- `attemptMessageRecovery` (lsb_steganography.js:277-322). -/
def attemptMessageRecovery (bits : List Bool) : List ℕ :=
  (chunks8 bits).foldl recoverStep []

/-- The 8 LSBs of hypothetical character `c` of the body (lsb_steganography.js:246-249). -/
def chunkBitsAt (data : List ℕ) (c : ℕ) : List Bool :=
  (List.range 8).map (fun b => readBit data (128 + c * 8 + b))

/-- Printable characters among the first `t` hypothetical body characters
that lie entirely inside the buffer (lsb_steganography.js:245-258). -/
def countPrintableAt (data : List ℕ) (t : ℕ) : ℕ :=
  ((List.range t).filter (fun c =>
    decide (128 + c * 8 + 8 ≤ data.length) &&
      (decide (32 ≤ bitsToNat (chunkBitsAt data c)) &&
        decide (bitsToNat (chunkBitsAt data c) ≤ 126)))).length

/-- `attemptLengthRecovery` (lsb_steganography.js:233-271): try lengths
1–100, keeping the first length with a strictly better printable ratio
(initial best: length 10, score −1). -/
def attemptLengthRecovery (data : List ℕ) : ℕ :=
  ((List.range 100).foldl
    (fun best t0 =>
      let t := t0 + 1
      let score : ℚ := (countPrintableAt data t : ℚ) / (t : ℚ)
      if best.2 < score then (t, score) else best)
    ((10 : ℕ), (-1 : ℚ))).1

/-- `printableScore` (lsb_steganography.js:191-192): printable ratio of the
message, 0 for an empty message. -/
def printableScoreOf (message : List ℕ) : ℚ :=
  if 0 < message.length then (printableCount message : ℚ) / (message.length : ℚ) else 0

/-- Tolerant-mode recovery score (lsb_steganography.js:186-212). -/
def recoveryScoreOf (message : List ℕ) : ℚ :=
  let len : ℚ := message.length
  let ps := printableScoreOf message
  if 9/10 ≤ ps then min 1 (len / max len 30)
  else if 1/2 ≤ ps then ps * (6/10) + (len / 30) * (4/10)
  else ps * (3/10)

/-- Result record of `extractMessage`. -/
structure ExtractResult where
  message : List ℕ
  recoveryScore : ℚ
  bitsRecovered : ℕ
  wasCorrupted : Bool
deriving DecidableEq, Repr

/-- Body extraction and scoring for a decoded (or recovered) length `L`
(lsb_steganography.js:146-226). -/
def extractBody (data : List ℕ) (L : ℕ) (tolerance : Bool) : ExtractResult :=
  let messageBits := extractBitsRange data 128 (L * 8)
  let message0 := binaryToString messageBits
  let corrupted := tolerance && decide (0 < message0.length) &&
    decide ((printableCount message0 : ℚ) / (message0.length : ℚ) < 7/10)
  let message :=
    if corrupted then
      let recovered := attemptMessageRecovery messageBits
      if 0 < recovered.length then recovered else message0
    else message0
  ⟨message, if tolerance then recoveryScoreOf message else 1, L * 8, corrupted⟩

/-- Length-header validation (lsb_steganography.js:126-142): the parsed
value must be an integer in (0, 10000]. -/
def validLength (p : Option ℤ) : Option ℕ :=
  match p with
  | none => none
  | some L => if L ≤ 0 ∨ 10000 < L then none else some L.toNat

/-- `extractMessage` (lsb_steganography.js:105-227) on the raw stego bytes. -/
def extractMessage (data : List ℕ) (tolerance : Bool) : Except StegoError ExtractResult :=
  match validLength (parseIntJS (binaryToString (extractBitsRange data 0 128))) with
  | some L => .ok (extractBody data L tolerance)
  | none =>
    if tolerance then .ok (extractBody data (attemptLengthRecovery data) tolerance)
    else .error .invalidLength

/-! ### Embedding/extraction round-trip lemmas -/

theorem getLSB_setLSB (d : ℕ) (b : Bool) : getLSB (setLSB d b) = b := by
  cases b
  · have h : ((d &&& 254) ||| 0) &&& 1 = 0 := by
      apply Nat.eq_of_testBit_eq
      intro i
      cases i with
      | zero => simp
      | succ j => simp [Nat.testBit_succ]
    simp [getLSB, setLSB, h]
  · have h : ((d &&& 254) ||| 1) &&& 1 = 1 := by
      apply Nat.eq_of_testBit_eq
      intro i
      cases i with
      | zero => simp
      | succ j => simp [Nat.testBit_succ]
    simp [getLSB, setLSB, h]

theorem readBit_embedBits :
    ∀ (data : List ℕ) (bits : List Bool) (i : ℕ), i < bits.length → i < data.length →
      readBit (embedBits data bits) i = bits.getD i false
  | _, [], i, hi, _ => by simp at hi
  | [], _ :: _, _, _, hd => by simp at hd
  | d :: ds, b :: bs, 0, _, _ => by
    simp [embedBits, readBit, getLSB_setLSB]
  | d :: ds, b :: bs, i + 1, hi, hd => by
    simp only [embedBits, readBit, List.getD_cons_succ]
    exact readBit_embedBits ds bs i (by simpa using hi) (by simpa using hd)

theorem embedBits_length (data : List ℕ) (bits : List Bool) :
    (embedBits data bits).length = data.length := by
  induction data generalizing bits with
  | nil => cases bits <;> rfl
  | cons d ds ih =>
    cases bits with
    | nil => rfl
    | cons b bs => simp [embedBits, ih bs]

theorem map_getD_range (l : List Bool) :
    (List.range l.length).map (fun i => l.getD i false) = l := by
  induction l with
  | nil => simp
  | cons a t ih =>
    rw [List.length_cons, List.range_succ_eq_map]
    simp only [List.map_cons, List.map_map, Function.comp_def, List.getD_cons_zero,
      List.getD_cons_succ]
    rw [ih]

theorem extractBitsRange_embedBits (data : List ℕ) (bits : List Bool) (start cnt : ℕ)
    (h1 : start + cnt ≤ bits.length) (h2 : bits.length ≤ data.length) :
    extractBitsRange (embedBits data bits) start cnt =
      (List.range cnt).map (fun j => bits.getD (start + j) false) := by
  unfold extractBitsRange
  apply List.map_congr_left
  intro j hj
  have hj' : j < cnt := List.mem_range.mp hj
  exact readBit_embedBits data bits (start + j) (by omega)
    (by have := embedBits_length data bits; omega)

theorem extract_header_bits (data : List ℕ) (hb mb : List Bool)
    (hhb : hb.length = 128) (h2 : (hb ++ mb).length ≤ data.length) :
    extractBitsRange (embedBits data (hb ++ mb)) 0 128 = hb := by
  rw [extractBitsRange_embedBits data (hb ++ mb) 0 128 (by simp; omega) h2]
  have heq : ∀ j ∈ List.range 128, (hb ++ mb).getD (0 + j) false = hb.getD j false := by
    intro j hj
    have : j < 128 := List.mem_range.mp hj
    rw [Nat.zero_add]
    exact List.getD_append hb mb false j (by omega)
  rw [List.map_congr_left heq, ← hhb, map_getD_range]

theorem extract_body_bits (data : List ℕ) (hb mb : List Bool)
    (hhb : hb.length = 128) (h2 : (hb ++ mb).length ≤ data.length) :
    extractBitsRange (embedBits data (hb ++ mb)) 128 mb.length = mb := by
  rw [extractBitsRange_embedBits data (hb ++ mb) 128 mb.length (by simp; omega) h2]
  have heq : ∀ j ∈ List.range mb.length,
      (hb ++ mb).getD (128 + j) false = mb.getD j false := by
    intro j _
    have harith : 128 + j - 128 = j := by omega
    rw [List.getD_append_right hb mb false (128 + j) (by omega), hhb, harith]
  rw [List.map_congr_left heq, map_getD_range]

/-! ### Decimal header lemmas -/

theorem digitsVal_cons48 (l : List ℕ) : digitsVal (48 :: l) = digitsVal l := by
  simp [digitsVal]

theorem digitsVal_concat (xs : List ℕ) (c : ℕ) :
    digitsVal (xs ++ [c]) = 10 * digitsVal xs + (c - 48) := by
  simp [digitsVal, List.foldl_append]

theorem digitsVal_reverse_digits (n : ℕ) :
    digitsVal (((toDigitsRev 10 n).map (· + 48)).reverse) = n := by
  induction n using Nat.strong_induction_on with
  | _ n ih =>
    rcases Nat.eq_zero_or_pos n with h0 | hpos
    · simp [h0, toDigitsRev, toDigitsRevFuel_nils, digitsVal]
    · rw [toDigitsRev_eq 10 n (by norm_num) (by omega)]
      simp only [List.map_cons, List.reverse_cons]
      rw [digitsVal_concat, ih (n / 10) (Nat.div_lt_self hpos (by norm_num))]
      omega

theorem digitsVal_natToDecChars (n : ℕ) : digitsVal (natToDecChars n) = n := by
  unfold natToDecChars
  split
  · simp [digitsVal, *]
  · exact digitsVal_reverse_digits n

theorem digitsVal_replicate48 (k : ℕ) (cs : List ℕ) :
    digitsVal (List.replicate k 48 ++ cs) = digitsVal cs := by
  induction k with
  | zero => simp
  | succ j ih => simpa [List.replicate_succ, digitsVal_cons48] using ih

theorem digitsVal_lengthHeader (n : ℕ) : digitsVal (lengthHeader n) = n := by
  unfold lengthHeader
  rw [digitsVal_replicate48, digitsVal_natToDecChars]

theorem natToDecChars_digits (n : ℕ) : ∀ c ∈ natToDecChars n, 48 ≤ c ∧ c ≤ 57 := by
  unfold natToDecChars
  split
  · simp
  · intro c hc
    rw [List.mem_reverse, List.mem_map] at hc
    obtain ⟨d, hd, rfl⟩ := hc
    have := toDigitsRevFuel_lt 10 (by norm_num) n n d hd
    omega

theorem lengthHeader_digits (n : ℕ) : ∀ c ∈ lengthHeader n, 48 ≤ c ∧ c ≤ 57 := by
  intro c hc
  unfold lengthHeader at hc
  rw [List.mem_append] at hc
  rcases hc with hc | hc
  · have := List.eq_of_mem_replicate hc
    omega
  · exact natToDecChars_digits n c hc

theorem natToDecChars_length_le (n : ℕ) (h : n < 10 ^ 16) :
    (natToDecChars n).length ≤ 16 := by
  unfold natToDecChars
  split
  · simp
  · simp only [List.length_reverse, List.length_map]
    exact toDigitsRevFuel_length 10 (by norm_num) 16 n n h

theorem lengthHeader_length (n : ℕ) (h : n < 10 ^ 16) : (lengthHeader n).length = 16 := by
  have hle := natToDecChars_length_le n h
  simp [lengthHeader]
  omega

theorem takeWhile_of_all {α : Type} (p : α → Bool) :
    ∀ (l : List α), (∀ x ∈ l, p x) → l.takeWhile p = l
  | [], _ => rfl
  | a :: t, h => by
    rw [List.takeWhile_cons, if_pos (h a (by simp))]
    rw [takeWhile_of_all p t (fun x hx => h x (by simp [hx]))]

theorem parseIntJS_digits (cs : List ℕ) (hne : cs ≠ [])
    (hds : ∀ c ∈ cs, 48 ≤ c ∧ c ≤ 57) :
    parseIntJS cs = some (digitsVal cs : ℤ) := by
  obtain ⟨c0, rest, rfl⟩ := List.exists_cons_of_ne_nil hne
  have hc0 := hds c0 (by simp)
  have hsp : isSpace c0 = false := by simp [isSpace]; omega
  have htw : (c0 :: rest).takeWhile isDigit = c0 :: rest := by
    apply takeWhile_of_all
    intro x hx
    have := hds x hx
    simp [isDigit]
    omega
  unfold parseIntJS
  rw [List.dropWhile_cons, hsp]
  simp only [Bool.false_eq_true, if_false]
  rw [if_neg (by omega), if_neg (by omega)]
  have hdec : parseDecPrefix (c0 :: rest) = some (digitsVal (c0 :: rest)) := by
    unfold parseDecPrefix
    rw [htw]
    simp [digitsVal]
  have hpu : parseUnsigned (c0 :: rest) = parseDecPrefix (c0 :: rest) := by
    unfold parseUnsigned
    rw [if_neg]
    rintro ⟨hlen, _, hx⟩
    cases rest with
    | nil => simp at hlen
    | cons c1 r' =>
      have hc1 := hds c1 (by simp)
      simp only [List.getD_cons_succ, List.getD_cons_zero] at hx
      omega
  rw [hpu, hdec]
  rfl

/-- The stego buffer produced by a successful `embedMessage`. -/
def embedStego (data m : List ℕ) : List ℕ :=
  embedBits data (stringToBinary (lengthHeader m.length ++ m))

theorem payload_length (m : List ℕ) (h256 : ∀ c ∈ m, c < 256) (hlen : m.length < 10 ^ 16) :
    (stringToBinary (lengthHeader m.length ++ m)).length = 128 + 8 * m.length := by
  have hh : ∀ c ∈ lengthHeader m.length, c < 256 := fun c hc => by
    have := lengthHeader_digits m.length c hc
    omega
  rw [stringToBinary_append, List.length_append, stringToBinary_length _ hh,
    stringToBinary_length m h256, lengthHeader_length m.length hlen]

theorem embedMessage_eq_ok (data m : List ℕ) (h256 : ∀ c ∈ m, c < 256)
    (hlen : m.length < 10 ^ 16) (hcap : 128 + 8 * m.length ≤ data.length) :
    embedMessage data m = .ok (embedStego data m) := by
  have hpl := payload_length m h256 hlen
  simp only [embedMessage, embedStego]
  rw [if_neg (by omega)]

theorem extract_stego_core (data m : List ℕ) (h256 : ∀ c ∈ m, c < 256)
    (hpos : 1 ≤ m.length) (hmax : m.length ≤ 10000)
    (hcap : 128 + 8 * m.length ≤ data.length) (t : Bool) :
    extractMessage (embedStego data m) t = .ok (extractBody (embedStego data m) m.length t) ∧
    binaryToString (extractBitsRange (embedStego data m) 128 (m.length * 8)) = m := by
  have hhd : ∀ c ∈ lengthHeader m.length, c < 256 := fun c hc => by
    have := lengthHeader_digits m.length c hc
    omega
  have hlen16 : m.length < 10 ^ 16 := by
    have : (10000 : ℕ) < 10 ^ 16 := by norm_num
    omega
  have hhb : (stringToBinary (lengthHeader m.length)).length = 128 := by
    rw [stringToBinary_length _ hhd, lengthHeader_length m.length hlen16]
  have hmb : (stringToBinary m).length = 8 * m.length := stringToBinary_length m h256
  have hsplit : stringToBinary (lengthHeader m.length ++ m) =
      stringToBinary (lengthHeader m.length) ++ stringToBinary m :=
    stringToBinary_append _ _
  have hple : (stringToBinary (lengthHeader m.length) ++ stringToBinary m).length ≤
      data.length := by
    rw [List.length_append, hhb, hmb]
    omega
  have hstego : embedStego data m =
      embedBits data (stringToBinary (lengthHeader m.length) ++ stringToBinary m) := by
    rw [embedStego, hsplit]
  have hheader : extractBitsRange (embedStego data m) 0 128 =
      stringToBinary (lengthHeader m.length) := by
    rw [hstego]
    exact extract_header_bits data _ _ hhb hple
  have hbody : extractBitsRange (embedStego data m) 128 (m.length * 8) = stringToBinary m := by
    rw [hstego, Nat.mul_comm, ← hmb]
    exact extract_body_bits data _ _ hhb hple
  have hhdr_ne : lengthHeader m.length ≠ [] := by
    intro h
    have := lengthHeader_length m.length hlen16
    rw [h] at this
    simp at this
  have hparse : parseIntJS (binaryToString (extractBitsRange (embedStego data m) 0 128)) =
      some (m.length : ℤ) := by
    rw [hheader, binaryToString_stringToBinary _ hhd,
      parseIntJS_digits _ hhdr_ne (lengthHeader_digits m.length), digitsVal_lengthHeader]
  have hvalid : validLength (some (m.length : ℤ)) = some m.length := by
    have hneg : ¬((m.length : ℤ) ≤ 0 ∨ 10000 < (m.length : ℤ)) := by
      push_neg
      constructor
      · exact_mod_cast hpos
      · exact_mod_cast hmax
    simp only [validLength]
    rw [if_neg hneg]
    simp
  constructor
  · unfold extractMessage
    rw [hparse, hvalid]
  · rw [hbody]
    exact binaryToString_stringToBinary m h256

theorem extractBody_strict (data : List ℕ) (L : ℕ) :
    extractBody data L false =
      ⟨binaryToString (extractBitsRange data 128 (L * 8)), 1, L * 8, false⟩ := by
  simp [extractBody]

theorem printableCount_all (m : List ℕ) (h : ∀ c ∈ m, 32 ≤ c ∧ c ≤ 126) :
    printableCount m = m.length := by
  unfold printableCount
  rw [List.filter_eq_self.mpr]
  intro c hc
  have := h c hc
  simp
  omega

theorem recoveryScoreOf_perfect (m : List ℕ) (hpr : ∀ c ∈ m, 32 ≤ c ∧ c ≤ 126)
    (h30 : 30 ≤ m.length) :
    recoveryScoreOf m = 1 := by
  have h0 : 0 < m.length := by omega
  have hlen : (0 : ℚ) < (m.length : ℚ) := by exact_mod_cast h0
  have hps1 : printableScoreOf m = 1 := by
    unfold printableScoreOf
    rw [if_pos h0, printableCount_all m hpr, div_self (ne_of_gt hlen)]
  simp only [recoveryScoreOf, hps1]
  rw [if_pos (by norm_num : (9 : ℚ)/10 ≤ 1),
    max_eq_left (by exact_mod_cast h30 : (30 : ℚ) ≤ (m.length : ℚ)),
    div_self (ne_of_gt hlen)]
  simp

theorem extractBody_tolerant_perfect (data : List ℕ) (L : ℕ) (m : List ℕ)
    (hbits : binaryToString (extractBitsRange data 128 (L * 8)) = m)
    (hpr : ∀ c ∈ m, 32 ≤ c ∧ c ≤ 126) (h30 : 30 ≤ m.length) :
    extractBody data L true = ⟨m, 1, L * 8, false⟩ := by
  have hlen : (0 : ℚ) < (m.length : ℚ) := by
    have : 0 < m.length := by omega
    exact_mod_cast this
  have hratio : ¬((printableCount m : ℚ) / (m.length : ℚ) < 7/10) := by
    rw [printableCount_all m hpr, div_self (ne_of_gt hlen)]
    norm_num
  simp only [extractBody, hbits]
  rw [decide_eq_false hratio]
  simp [recoveryScoreOf_perfect m hpr h30]

/-! ## Bit corruption (`applyBitCorruption`, transforms.js:147-174) -/

/-- `applyBitCorruption` on the raw pixel bytes: flip
`Math.ceil(data.length * corruptionRate)` randomly chosen bits.  The
random byte/bit choices are passed in explicitly as `rand`; the PNG
re-encode around the raw buffer is lossless and elided. -/
def applyBitCorruption (data : List ℕ) (rate : ℚ) (rand : List (ℕ × ℕ)) : List ℕ :=
  let bytesToCorrupt := (⌈(data.length : ℚ) * rate⌉).toNat
  (rand.take bytesToCorrupt).foldl
    (fun d p => d.set p.1 ((d.getD p.1 0) ^^^ (1 <<< p.2))) data

theorem applyBitCorruption_zero (data : List ℕ) (rand : List (ℕ × ℕ)) :
    applyBitCorruption data 0 rand = data := by
  simp [applyBitCorruption]

/-! ## Score-shape lemmas for tolerant extraction -/

theorem printableCount_le_length (m : List ℕ) : printableCount m ≤ m.length :=
  List.length_filter_le _ m

theorem printableScoreOf_nonneg (m : List ℕ) : 0 ≤ printableScoreOf m := by
  unfold printableScoreOf
  split
  · positivity
  · exact le_refl 0

theorem printableScoreOf_le_one (m : List ℕ) : printableScoreOf m ≤ 1 := by
  unfold printableScoreOf
  split
  · rename_i h
    rw [div_le_one (by exact_mod_cast h)]
    exact_mod_cast printableCount_le_length m
  · norm_num

theorem recoveryScoreOf_nonneg (m : List ℕ) : 0 ≤ recoveryScoreOf m := by
  have hps := printableScoreOf_nonneg m
  have hlen : (0 : ℚ) ≤ (m.length : ℚ) := by positivity
  simp only [recoveryScoreOf]
  split
  · exact le_min (by norm_num)
      (div_nonneg hlen (le_trans (by norm_num : (0:ℚ) ≤ 30) (le_max_right _ _)))
  · split
    · nlinarith
    · nlinarith

theorem recoveryScoreOf_le_one_high (m : List ℕ) (h : 9/10 ≤ printableScoreOf m) :
    recoveryScoreOf m ≤ 1 := by
  simp only [recoveryScoreOf]
  rw [if_pos h]
  exact min_le_left _ _

theorem recoveryScoreOf_le_one_low (m : List ℕ) (h : printableScoreOf m < 1/2) :
    recoveryScoreOf m ≤ 1 := by
  have hle := printableScoreOf_le_one m
  have hge := printableScoreOf_nonneg m
  simp only [recoveryScoreOf]
  rw [if_neg (by linarith), if_neg (by linarith)]
  linarith

theorem extractBody_tolerant_score (data : List ℕ) (L : ℕ) :
    (extractBody data L true).recoveryScore =
      recoveryScoreOf ((extractBody data L true).message) := by
  simp [extractBody]

theorem extractMessage_tolerant_ok (data : List ℕ) :
    ∃ L, extractMessage data true = .ok (extractBody data L true) := by
  unfold extractMessage
  cases validLength (parseIntJS (binaryToString (extractBitsRange data 0 128))) with
  | none => exact ⟨attemptLengthRecovery data, by simp⟩
  | some L => exact ⟨L, by simp⟩

/-! ## Metrics (`computePSNR` / `computeSSIM` / `computeMSE`, metrics.js) -/

/-- `computeMSE`'s accumulation (metrics.js:59-68): mean of squared
per-index differences, iterating over the indices of the first buffer. -/
def computeMSE (a b : List ℚ) : ℚ :=
  (((List.range a.length).map (fun i =>
    (a.getD i 0 - b.getD i 0) * (a.getD i 0 - b.getD i 0))).sum) / (a.length : ℚ)

/-- `computePSNR` (metrics.js:35-84): `none` is the `Infinity` sentinel
returned exactly when the MSE is zero; otherwise `10*log10(255²/MSE)`.
Buffers are assumed same-dimension (the resize-to-match path is identity). -/
noncomputable def computePSNR (a b : List ℚ) : Option ℝ :=
  let mse := computeMSE a b
  if mse = 0 then none
  else some (10 * Real.logb 10 ((255 * 255 : ℝ) / (mse : ℝ)))

/-- `computeSSIM` (metrics.js:103-167): simplified single-scale global
SSIM, clamped to [0,1]. -/
def computeSSIM (a b : List ℚ) : ℚ :=
  let c1 : ℚ := ((1/100) * 255) ^ 2
  let c2 : ℚ := ((3/100) * 255) ^ 2
  let n : ℚ := a.length
  let meanA := ((List.range a.length).map (fun i => a.getD i 0)).sum / n
  let meanB := ((List.range a.length).map (fun i => b.getD i 0)).sum / n
  let varA := ((List.range a.length).map (fun i =>
    (a.getD i 0 - meanA) * (a.getD i 0 - meanA))).sum / n
  let varB := ((List.range a.length).map (fun i =>
    (b.getD i 0 - meanB) * (b.getD i 0 - meanB))).sum / n
  let covarAB := ((List.range a.length).map (fun i =>
    (a.getD i 0 - meanA) * (b.getD i 0 - meanB))).sum / n
  let num := (2 * meanA * meanB + c1) * (2 * covarAB + c2)
  let den := (meanA * meanA + meanB * meanB + c1) * (varA + varB + c2)
  max 0 (min 1 (num / den))

theorem computeMSE_self (x : List ℚ) : computeMSE x x = 0 := by
  simp [computeMSE]

theorem computePSNR_self (x : List ℚ) : computePSNR x x = none := by
  simp [computePSNR, computeMSE_self]

theorem ssim_core (c1 c2 mean v : ℚ) (hc1 : 0 < c1) (hc2 : 0 < c2) (hv : 0 ≤ v) :
    max 0 (min 1 (((2 * mean * mean + c1) * (2 * v + c2)) /
      ((mean * mean + mean * mean + c1) * (v + v + c2)))) = 1 := by
  have hm := mul_self_nonneg mean
  have hden : 0 < (mean * mean + mean * mean + c1) * (v + v + c2) := by nlinarith
  have hnum_eq : (2 * mean * mean + c1) * (2 * v + c2) =
      (mean * mean + mean * mean + c1) * (v + v + c2) := by ring
  rw [hnum_eq, div_self (ne_of_gt hden)]
  simp

theorem computeSSIM_self (x : List ℚ) : computeSSIM x x = 1 := by
  simp only [computeSSIM]
  apply ssim_core _ _ _ _ (by norm_num) (by norm_num)
  apply div_nonneg
  · apply List.sum_nonneg
    intro q hq
    rw [List.mem_map] at hq
    obtain ⟨i, _, rfl⟩ := hq
    exact mul_self_nonneg _
  · positivity

/-! ## Robustness runner (`runDryRun`, runner.js:136-355) -/

/-- One entry of `sample.transforms` (runner.js:250-274). -/
structure StepResult (τ : Type) where
  spec : τ
  extractionSuccess : Bool
  partialRecovery : Bool
  recoveryScore : ℚ
  extractedMessage : List ℕ
  errorMsg : Option String
deriving DecidableEq

/-- Per-sample record: the ordered step list and the derived scores
(runner.js:178-305). -/
structure Sample (τ : Type) where
  transforms : List (StepResult τ)
  robustnessScore : ℚ
  finalMessageVerified : Bool
deriving DecidableEq

/-- Classify one extraction outcome (runner.js:237-275): `perfect` when the
extracted text equals the hidden message, `partial` when non-empty and
different; a thrown extraction error is caught and recorded with score 0. -/
def processStep {τ : Type} (hidden : List ℕ) (t : τ)
    (res : Except String ExtractResult) : StepResult τ :=
  match res with
  | .ok er =>
    ⟨t, decide (er.message = hidden),
      decide (0 < er.message.length) && decide (er.message ≠ hidden),
      er.recoveryScore, er.message, none⟩
  | .error e => ⟨t, false, false, 0, [], some e⟩

/-- The transform loop (runner.js:221-279): apply each transform to the
*current* stego buffer (a transform-application error propagates), attempt
tolerant extraction (an extraction error is caught per step), and carry
the transformed buffer into the next step. -/
def chainSteps {τ : Type} (applyT : τ → List ℕ → Except String (List ℕ))
    (extractT : List ℕ → Except String ExtractResult) (hidden : List ℕ) :
    List τ → List ℕ → Except String (List (StepResult τ))
  | [], _ => .ok []
  | t :: ts, cur =>
    match applyT t cur with
    | .error e => .error e
    | .ok buf =>
      match chainSteps applyT extractT hidden ts buf with
      | .error e => .error e
      | .ok rest => .ok (processStep hidden t (extractT buf) :: rest)

/-- Per-step weight in the robustness sum (runner.js:287-294):
perfect = 1.0, partial with positive score = recoveryScore, else 0. -/
def contribution {τ : Type} (s : StepResult τ) : ℚ :=
  if s.extractionSuccess then 1
  else if s.partialRecovery ∧ 0 < s.recoveryScore then s.recoveryScore else 0

/-- Process one sample (runner.js:174-305): run the chain, then derive
`robustnessScore = totalRecoveryScore / N` (1.0 when `N = 0`) and
`finalMessageVerified` from the last step. -/
def processSample {τ : Type} (applyT : τ → List ℕ → Except String (List ℕ))
    (extractT : List ℕ → Except String ExtractResult)
    (hidden stego0 : List ℕ) (ts : List τ) : Except String (Sample τ) :=
  match chainSteps applyT extractT hidden ts stego0 with
  | .error e => .error e
  | .ok steps =>
    .ok ⟨steps,
      if 0 < ts.length then ((steps.map contribution).sum) / (ts.length : ℚ) else 1,
      ((steps.getLast?).map (·.extractionSuccess)).getD true⟩

/-- Run-level result record (runner.js:142-153, 322-343): processed
samples plus a completion status and recorded error message. -/
structure RunResults (τ : Type) where
  samples : List (Sample τ)
  status : String
  error : Option String
deriving DecidableEq

/-- The sample loop of `runDryRun` (runner.js:174-354): samples are
processed sequentially inside one `try`; the first error escaping a
sample marks the whole run `failed`, records the message, and rethrows —
remaining samples are not processed. -/
def runLoop {τ : Type} (applyT : τ → List ℕ → Except String (List ℕ))
    (extractT : List ℕ → Except String ExtractResult) (ts : List τ) :
    List (List ℕ × List ℕ) → List (Sample τ) → RunResults τ
  | [], acc => ⟨acc.reverse, "completed", none⟩
  | (hidden, stego0) :: rest, acc =>
    match processSample applyT extractT hidden stego0 ts with
    | .error e => ⟨acc.reverse, "failed", some e⟩
    | .ok s => runLoop applyT extractT ts rest (s :: acc)

/-- `runDryRun` reduced to its sample loop: inputs are (hidden message,
initial stego buffer) pairs. -/
def runDryRunModel {τ : Type} (applyT : τ → List ℕ → Except String (List ℕ))
    (extractT : List ℕ → Except String ExtractResult)
    (inputs : List (List ℕ × List ℕ)) (ts : List τ) : RunResults τ :=
  runLoop applyT extractT ts inputs []

/-- `applyJpeg`'s parameter validation (transforms.js:21-24); the lossy
re-encode itself is the external codec, passed in as `compress`. -/
def applyJpeg (compress : List ℕ → List ℕ) (quality : ℚ) (buffer : List ℕ) :
    Except String (List ℕ) :=
  if quality < 1 ∨ 100 < quality then .error "JPEG quality must be between 1 and 100"
  else .ok (compress buffer)

/-! ### Chunk-level lemmas for short-buffer extraction -/

theorem isEmpty_false_of_pos (l : List Bool) (h : 0 < l.length) : l.isEmpty = false := by
  cases l
  · simp at h
  · rfl

theorem binaryToString_length_mul8 (L : ℕ) :
    ∀ (bits : List Bool), bits.length = L * 8 → (binaryToString bits).length = L := by
  induction L with
  | zero =>
    intro bits h
    have : bits = [] := List.eq_nil_of_length_eq_zero (by omega)
    simp [this, binaryToString, chunks8_nil]
  | succ k ih =>
    intro bits h
    have hpos : 0 < bits.length := by omega
    have hne : bits.isEmpty = false := isEmpty_false_of_pos bits hpos
    unfold binaryToString
    rw [chunks8_eq, hne]
    simp only [Bool.false_eq_true, if_false, List.map_cons, List.length_cons]
    have hdrop : (bits.drop 8).length = k * 8 := by
      simp only [List.length_drop]
      omega
    have := ih (bits.drop 8) hdrop
    unfold binaryToString at this
    omega

theorem binaryToString_getD (j : ℕ) :
    ∀ (bits : List Bool) (L : ℕ), bits.length = L * 8 → j < L →
      (binaryToString bits).getD j 0 = bitsToNat ((bits.drop (j * 8)).take 8) := by
  induction j with
  | zero =>
    intro bits L h hj
    have hpos : 0 < bits.length := by
      have : 8 ≤ L * 8 := by omega
      omega
    have hne : bits.isEmpty = false := isEmpty_false_of_pos bits hpos
    unfold binaryToString
    rw [chunks8_eq, hne]
    simp
  | succ i ih =>
    intro bits L h hj
    have hpos : 0 < bits.length := by
      have : 8 ≤ L * 8 := by omega
      omega
    have hne : bits.isEmpty = false := isEmpty_false_of_pos bits hpos
    unfold binaryToString
    rw [chunks8_eq, hne]
    simp only [Bool.false_eq_true, if_false, List.map_cons, List.getD_cons_succ]
    have hdrop : (bits.drop 8).length = (L - 1) * 8 := by
      simp only [List.length_drop]
      have : 1 ≤ L := by omega
      calc bits.length - 8 = L * 8 - 8 := by omega
      _ = (L - 1) * 8 := by omega
    have hrec := ih (bits.drop 8) (L - 1) hdrop (by omega)
    unfold binaryToString at hrec
    rw [hrec, List.drop_drop]
    have harith : 8 + i * 8 = (i + 1) * 8 := by ring
    rw [harith]

theorem bitsToNat_all_false (l : List Bool) (h : ∀ b ∈ l, b = false) : bitsToNat l = 0 := by
  induction l with
  | nil => rfl
  | cons b t ih =>
    have hb : b = false := h b (by simp)
    have : bitsToNat (b :: t) = bitsToNat t := by
      simp [bitsToNat, hb]
    rw [this]
    exact ih (fun x hx => h x (by simp [hx]))

theorem readBit_oob (data : List ℕ) (i : ℕ) (h : data.length ≤ i) :
    readBit data i = false := by
  unfold readBit
  rw [List.getD_eq_default data 0 h]
  rfl

theorem extractBitsRange_length (data : List ℕ) (start cnt : ℕ) :
    (extractBitsRange data start cnt).length = cnt := by
  simp [extractBitsRange]

theorem extractBitsRange_getElem (data : List ℕ) (start cnt i : ℕ)
    (h : i < (extractBitsRange data start cnt).length) :
    (extractBitsRange data start cnt)[i] = readBit data (start + i) := by
  simp [extractBitsRange]

/-- C2: Round-trip of the bit codec on single-byte code points. -/
theorem codec_round_trip (s : List ℕ) (h : ∀ c ∈ s, c < 256) :
    binaryToString (stringToBinary s) = s :=
  binaryToString_stringToBinary s h

/-- Witness for `codec_round_trip` at the concrete string "Hi\xFF". -/
theorem codec_round_trip_witness :
    (∀ c ∈ [72, 105, 255], c < 256) ∧
      binaryToString (stringToBinary [72, 105, 255]) = [72, 105, 255] :=
  ⟨by decide, codec_round_trip [72, 105, 255] (by decide)⟩

instance exceptDecEq {e a : Type} [DecidableEq e] [DecidableEq a] : DecidableEq (Except e a) :=
  fun x y =>
    match x, y with
    | .ok u, .ok v =>
      if h : u = v then .isTrue (by rw [h]) else .isFalse (fun hc => h (Except.ok.inj hc))
    | .error u, .error v =>
      if h : u = v then .isTrue (by rw [h]) else .isFalse (fun hc => h (Except.error.inj hc))
    | .ok _, .error _ => .isFalse (fun hc => Except.noConfusion hc)
    | .error _, .ok _ => .isFalse (fun hc => Except.noConfusion hc)

theorem validLength_of_bounds (L : ℕ) (hpos : 0 < L) (hmax : L ≤ 10000) :
    validLength (some (L : ℤ)) = some L := by
  have hneg : ¬((L : ℤ) ≤ 0 ∨ 10000 < (L : ℤ)) := by
    push_neg
    exact ⟨by exact_mod_cast hpos, by exact_mod_cast hmax⟩
  simp only [validLength]
  rw [if_neg hneg]
  simp

theorem extractMessage_valid (data : List ℕ) (L : ℕ) (t : Bool)
    (hparse : parseIntJS (binaryToString (extractBitsRange data 0 128)) = some (L : ℤ))
    (hpos : 0 < L) (hmax : L ≤ 10000) :
    extractMessage data t = .ok (extractBody data L t) := by
  unfold extractMessage
  rw [hparse, validLength_of_bounds L hpos hmax]

theorem extractBody_tolerant_clean (data : List ℕ) (L : ℕ) (m : List ℕ)
    (hm : binaryToString (extractBitsRange data 128 (L * 8)) = m)
    (hclean : ¬((printableCount m : ℚ) / (m.length : ℚ) < 7/10)) :
    extractBody data L true = ⟨m, recoveryScoreOf m, L * 8, false⟩ := by
  simp only [extractBody, hm]
  rw [decide_eq_false hclean]
  simp

theorem extractBody_tolerant_corrupt (data : List ℕ) (L : ℕ) (m0 mrec : List ℕ)
    (hm : binaryToString (extractBitsRange data 128 (L * 8)) = m0)
    (hrec : attemptMessageRecovery (extractBitsRange data 128 (L * 8)) = mrec)
    (hpos : 0 < m0.length)
    (hdirty : (printableCount m0 : ℚ) / (m0.length : ℚ) < 7/10)
    (hrpos : 0 < mrec.length) :
    extractBody data L true = ⟨mrec, recoveryScoreOf mrec, L * 8, true⟩ := by
  simp only [extractBody, hm, hrec]
  rw [decide_eq_true hdirty, decide_eq_true hpos]
  simp [hrpos]

theorem recoveryScoreOf_perfect_short (m : List ℕ) (hpr : ∀ c ∈ m, 32 ≤ c ∧ c ≤ 126)
    (hpos : 0 < m.length) (hshort : m.length ≤ 30) :
    recoveryScoreOf m = (m.length : ℚ) / 30 := by
  have hlen : (0 : ℚ) < (m.length : ℚ) := by exact_mod_cast hpos
  have hps1 : printableScoreOf m = 1 := by
    unfold printableScoreOf
    rw [if_pos hpos, printableCount_all m hpr, div_self (ne_of_gt hlen)]
  simp only [recoveryScoreOf, hps1]
  rw [if_pos (by norm_num : (9 : ℚ)/10 ≤ 1),
    max_eq_right (by exact_mod_cast hshort : (m.length : ℚ) ≤ 30),
    min_eq_right (by rw [div_le_one (by norm_num : (0:ℚ) < 30)]; exact_mod_cast hshort)]

/-! ## Runner lemmas -/

theorem processStep_spec {τ : Type} (hidden : List ℕ) (t : τ)
    (res : Except String ExtractResult) : (processStep hidden t res).spec = t := by
  cases res <;> rfl

theorem chainSteps_spec {τ : Type} (applyT : τ → List ℕ → Except String (List ℕ))
    (extractT : List ℕ → Except String ExtractResult) (hidden : List ℕ) :
    ∀ (ts : List τ) (cur : List ℕ),
      (∀ t ∈ ts, ∀ b, ∃ b2, applyT t b = .ok b2) →
      ∃ steps, chainSteps applyT extractT hidden ts cur = .ok steps ∧
        steps.map StepResult.spec = ts := by
  intro ts
  induction ts with
  | nil => exact fun cur _ => ⟨[], rfl, rfl⟩
  | cons t ts ih =>
    intro cur hall
    obtain ⟨b2, hb2⟩ := hall t (by simp) cur
    obtain ⟨rest, hrest, hmap⟩ := ih b2 (fun u hu b => hall u (by simp [hu]) b)
    refine ⟨processStep hidden t (extractT b2) :: rest, ?_, ?_⟩
    · simp only [chainSteps, hb2, hrest]
    · simp [processStep_spec, hmap]

/-- The per-step weight exactly as §4.5 of the spec words it: 1.0 for a
perfect match, the recovery score for a partial recovery, 0 otherwise. -/
def specContribution {τ : Type} (s : StepResult τ) : ℚ :=
  if s.extractionSuccess then 1 else if s.partialRecovery then s.recoveryScore else 0

theorem contribution_eq {τ : Type} (st : StepResult τ) (h : 0 ≤ st.recoveryScore) :
    contribution st = specContribution st := by
  unfold contribution specContribution
  cases hsucc : st.extractionSuccess with
  | true => simp
  | false =>
    simp only [Bool.false_eq_true, if_false]
    cases hpart : st.partialRecovery with
    | false => simp
    | true =>
      by_cases hs : 0 < st.recoveryScore
      · rw [if_pos ⟨rfl, hs⟩, if_pos rfl]
      · have h0 : st.recoveryScore = 0 := le_antisymm (not_lt.mp hs) h
        rw [if_neg (fun hc => hs hc.2), if_pos rfl, h0]

theorem chain_scores_nonneg {τ : Type} (applyT : τ → List ℕ → Except String (List ℕ))
    (extractT : List ℕ → Except String ExtractResult)
    (hscore : ∀ b r, extractT b = .ok r → 0 ≤ r.recoveryScore) (hidden : List ℕ) :
    ∀ (ts : List τ) (cur : List ℕ) (steps : List (StepResult τ)),
      chainSteps applyT extractT hidden ts cur = .ok steps →
      ∀ st ∈ steps, 0 ≤ st.recoveryScore := by
  intro ts
  induction ts with
  | nil =>
    intro cur steps h st hst
    simp only [chainSteps, Except.ok.injEq] at h
    subst h
    simp at hst
  | cons t ts ih =>
    intro cur steps h st hst
    simp only [chainSteps] at h
    cases happ : applyT t cur with
    | error e => simp [happ] at h
    | ok buf =>
      simp only [happ] at h
      cases hrest : chainSteps applyT extractT hidden ts buf with
      | error e => simp [hrest] at h
      | ok rest =>
        simp only [hrest, Except.ok.injEq] at h
        subst h
        rcases List.mem_cons.mp hst with hst1 | hst2
        · subst hst1
          cases hext : extractT buf with
          | error e => simp [processStep, hext]
          | ok er =>
            have := hscore buf er hext
            simpa [processStep, hext] using this
        · exact ih buf rest hrest st hst2

theorem runLoop_fail {τ : Type} (applyT : τ → List ℕ → Except String (List ℕ))
    (extractT : List ℕ → Except String ExtractResult) (ts : List τ)
    (ph ps : List ℕ) (rest : List (List ℕ × List ℕ)) (e : String)
    (hfail : processSample applyT extractT ph ps ts = .error e) :
    ∀ (pre : List (List ℕ × List ℕ)) (acc : List (Sample τ)),
      (∀ q ∈ pre, ∃ s, processSample applyT extractT q.1 q.2 ts = .ok s) →
      (runLoop applyT extractT ts (pre ++ (ph, ps) :: rest) acc).status = "failed" ∧
      (runLoop applyT extractT ts (pre ++ (ph, ps) :: rest) acc).error = some e ∧
      (runLoop applyT extractT ts (pre ++ (ph, ps) :: rest) acc).samples.length =
        acc.length + pre.length := by
  intro pre
  induction pre with
  | nil =>
    intro acc _
    simp [runLoop, hfail]
  | cons q pre2 ih =>
    intro acc hall
    obtain ⟨s, hs⟩ := hall q (by simp)
    obtain ⟨a, b⟩ := q
    dsimp only at hs
    have hrec := ih (s :: acc) (fun u hu => hall u (by simp [hu]))
    simp only [List.cons_append, runLoop, hs, List.append_eq]
    refine ⟨hrec.1, hrec.2.1, ?_⟩
    rw [hrec.2.2]
    simp only [List.length_cons]
    omega

/-! ## Claim theorems -/

/-- C1 (amended): for every cover buffer and message of code points 0–255
with length in [1, 10000] whose payload (128 header bits + 8 bits/char)
fits the cover, strict extraction of the embedded stego buffer returns
exactly the message with recoveryScore 1. -/
theorem strict_round_trip (data m : List ℕ) (h256 : ∀ c ∈ m, c < 256)
    (hpos : 1 ≤ m.length) (hmax : m.length ≤ 10000)
    (hcap : 128 + 8 * m.length ≤ data.length) :
    embedMessage data m = .ok (embedStego data m) ∧
    extractMessage (embedStego data m) false = .ok ⟨m, 1, m.length * 8, false⟩ := by
  have hlen16 : m.length < 10 ^ 16 := by
    have : (10000 : ℕ) < 10 ^ 16 := by norm_num
    omega
  refine ⟨embedMessage_eq_ok data m h256 hlen16 hcap, ?_⟩
  obtain ⟨hex, hbody⟩ := extract_stego_core data m h256 hpos hmax hcap false
  rw [hex, extractBody_strict, hbody]

/-- Witness for `strict_round_trip`: the 5-character message "HELLO"
embedded into a 168-byte cover. -/
theorem strict_round_trip_witness :
    embedMessage (List.replicate 168 0) [72, 69, 76, 76, 79] =
      .ok (embedStego (List.replicate 168 0) [72, 69, 76, 76, 79]) ∧
    extractMessage (embedStego (List.replicate 168 0) [72, 69, 76, 76, 79]) false =
      .ok ⟨[72, 69, 76, 76, 79], 1, ([72, 69, 76, 76, 79] : List ℕ).length * 8, false⟩ :=
  strict_round_trip (List.replicate 168 0) [72, 69, 76, 76, 79]
    (by decide) (by decide) (by decide) (by decide)

/-- C1 counterexample: the empty message fits a 128-byte cover and embeds
successfully, but strict extraction then rejects the decoded length 0
(`0 < L` fails) and raises `invalidLength` instead of returning the
message — so the claim as stated is false for empty messages. -/
theorem strict_round_trip_cex :
    embedMessage (List.replicate 128 0) [] = .ok (embedStego (List.replicate 128 0) []) ∧
    extractMessage (embedStego (List.replicate 128 0) []) false = .error .invalidLength := by
  decide

/-- C3 (amended): for messages of code points 0–255 (the only case where a
character costs exactly 8 bits), embedding succeeds precisely when
128 + 8·length fits the raw byte count — equality included — and
otherwise fails with the capacity error, the cover being untouched
(embedding is a pure function of its inputs). -/
theorem capacity_boundary (data m : List ℕ) (h256 : ∀ c ∈ m, c < 256)
    (hlen : m.length < 10 ^ 16) :
    (128 + 8 * m.length ≤ data.length → embedMessage data m = .ok (embedStego data m)) ∧
    (data.length < 128 + 8 * m.length →
      embedMessage data m = .error (.capacityExceeded (128 + 8 * m.length) data.length)) := by
  have hpl := payload_length m h256 hlen
  constructor
  · intro h
    exact embedMessage_eq_ok data m h256 hlen h
  · intro h
    simp only [embedMessage]
    rw [if_pos (by omega), hpl]

/-- Witness for `capacity_boundary`: a 2-character message on a cover of
exactly 144 bytes — the capacity boundary. -/
theorem capacity_boundary_witness :
    (128 + 8 * ([65, 66] : List ℕ).length ≤ (List.replicate 144 (0 : ℕ)).length →
      embedMessage (List.replicate 144 0) [65, 66] =
        .ok (embedStego (List.replicate 144 0) [65, 66])) ∧
    ((List.replicate 144 (0 : ℕ)).length < 128 + 8 * ([65, 66] : List ℕ).length →
      embedMessage (List.replicate 144 0) [65, 66] =
        .error (.capacityExceeded (128 + 8 * ([65, 66] : List ℕ).length)
          (List.replicate 144 (0 : ℕ)).length)) :=
  capacity_boundary (List.replicate 144 0) [65, 66] (by decide) (by decide)

/-- C3 counterexample: the character U+0100 (code 256) encodes to 9 bits —
`toString(2)` is not truncated to 8 — so a buffer of 136 bytes, enough
for the claimed 128 + 8·1 = 136 payload bits, still fails the capacity
check (137 bits needed). -/
theorem capacity_boundary_cex :
    128 + 8 * ([256] : List ℕ).length ≤ (List.replicate 136 (0 : ℕ)).length ∧
    embedMessage (List.replicate 136 0) [256] = .error (.capacityExceeded 137 136) := by
  decide

/-- C4 (amended): a failure thrown while processing one sample — such as a
transform-application error — is *not* caught at the sample boundary: it
propagates to the run-level handler, which marks the whole run `failed`,
records the error message, keeps only the samples completed before it,
and processes none of the remaining samples. -/
theorem run_aborts_on_sample_failure {τ : Type}
    (applyT : τ → List ℕ → Except String (List ℕ))
    (extractT : List ℕ → Except String ExtractResult) (ts : List τ)
    (pre : List (List ℕ × List ℕ)) (ph ps : List ℕ)
    (rest : List (List ℕ × List ℕ)) (e : String)
    (hpre : ∀ q ∈ pre, ∃ s, processSample applyT extractT q.1 q.2 ts = .ok s)
    (hfail : processSample applyT extractT ph ps ts = .error e) :
    (runDryRunModel applyT extractT (pre ++ (ph, ps) :: rest) ts).status = "failed" ∧
    (runDryRunModel applyT extractT (pre ++ (ph, ps) :: rest) ts).error = some e ∧
    (runDryRunModel applyT extractT (pre ++ (ph, ps) :: rest) ts).samples.length =
      pre.length := by
  have h := runLoop_fail applyT extractT ts ph ps rest e hfail pre [] hpre
  simpa [runDryRunModel] using h

/-- Witness for `run_aborts_on_sample_failure`: a two-sample run whose
single JPEG transform has out-of-range quality 101; the first sample
aborts the run and the second is never processed. -/
theorem run_aborts_on_sample_failure_witness :
    (runDryRunModel (applyJpeg id) (fun _ => .ok ⟨[], 1, 0, false⟩)
      ([] ++ ([], []) :: [([], [])]) [(101 : ℚ)]).status = "failed" ∧
    (runDryRunModel (applyJpeg id) (fun _ => .ok ⟨[], 1, 0, false⟩)
      ([] ++ ([], []) :: [([], [])]) [(101 : ℚ)]).error =
        some "JPEG quality must be between 1 and 100" ∧
    (runDryRunModel (applyJpeg id) (fun _ => .ok ⟨[], 1, 0, false⟩)
      ([] ++ ([], []) :: [([], [])]) [(101 : ℚ)]).samples.length =
      ([] : List (List ℕ × List ℕ)).length :=
  run_aborts_on_sample_failure (applyJpeg id) (fun _ => .ok ⟨[], 1, 0, false⟩)
    [(101 : ℚ)] [] [] [] [([], [])] "JPEG quality must be between 1 and 100"
    (by simp) (by decide)

/-- C4 counterexample: in a two-sample run, an out-of-range JPEG quality
(101) on the first sample's transform application aborts the *whole* run:
the result set holds zero samples (not two) and the run status is
`failed` — the failure is not caught at the sample boundary and the
runner does not continue with the remaining sample. -/
theorem run_aborts_on_sample_failure_cex :
    runDryRunModel (applyJpeg id) (fun _ => .ok ⟨[], 1, 0, false⟩)
      [([], []), ([], [])] [(101 : ℚ)] =
      ⟨[], "failed", some "JPEG quality must be between 1 and 100"⟩ := by
  decide

/-- C5: when every transform application succeeds, the sample completes
with exactly one recorded step per configured transform, in the same
order, regardless of the extraction outcome of each step. -/
theorem sample_steps_in_order {τ : Type} (applyT : τ → List ℕ → Except String (List ℕ))
    (extractT : List ℕ → Except String ExtractResult) (hidden stego0 : List ℕ)
    (ts : List τ) (happly : ∀ t ∈ ts, ∀ b, ∃ b2, applyT t b = .ok b2) :
    ∃ s, processSample applyT extractT hidden stego0 ts = .ok s ∧
      s.transforms.length = ts.length ∧ s.transforms.map StepResult.spec = ts := by
  obtain ⟨steps, hsteps, hmap⟩ := chainSteps_spec applyT extractT hidden ts stego0 happly
  refine ⟨⟨steps,
      if 0 < ts.length then ((steps.map contribution).sum) / (ts.length : ℚ) else 1,
      ((steps.getLast?).map (·.extractionSuccess)).getD true⟩, ?_, ?_, hmap⟩
  · simp only [processSample, hsteps]
  · have h := congrArg List.length hmap
    rw [List.length_map] at h
    exact h

/-- Witness for `sample_steps_in_order`: three no-op transforms with an
always-failing extractor still record three steps in order. -/
theorem sample_steps_in_order_witness :
    ∃ s, processSample (fun (_ : ℕ) (b : List ℕ) => .ok b) (fun _ => .error "boom")
      [] [] [1, 2, 3] = .ok s ∧
      s.transforms.length = ([1, 2, 3] : List ℕ).length ∧
      s.transforms.map StepResult.spec = [1, 2, 3] :=
  sample_steps_in_order (fun _ b => .ok b) (fun _ => .error "boom") [] [] [1, 2, 3]
    (fun _ _ b => ⟨b, rfl⟩)

/-- C8: the recorded robustness score is the sum of the spec's per-step
contributions (1 for perfect, recoveryScore for partial, 0 otherwise)
divided by the number of configured transforms, and exactly 1 when no
transform is configured — provided the extractor only reports
nonnegative scores, as the real tolerant extractor does. -/
theorem robustness_score_formula {τ : Type} (applyT : τ → List ℕ → Except String (List ℕ))
    (extractT : List ℕ → Except String ExtractResult)
    (hscore : ∀ b r, extractT b = .ok r → 0 ≤ r.recoveryScore)
    (hidden stego0 : List ℕ) (ts : List τ) (s : Sample τ)
    (hok : processSample applyT extractT hidden stego0 ts = .ok s) :
    s.robustnessScore =
      if ts.length = 0 then 1
      else ((s.transforms.map specContribution).sum) / (ts.length : ℚ) := by
  unfold processSample at hok
  cases hchain : chainSteps applyT extractT hidden ts stego0 with
  | error e => rw [hchain] at hok; simp at hok
  | ok steps =>
    rw [hchain] at hok
    simp only [Except.ok.injEq] at hok
    have hnn := chain_scores_nonneg applyT extractT hscore hidden ts stego0 steps hchain
    have hmap : steps.map contribution = steps.map specContribution :=
      List.map_congr_left (fun st hst => contribution_eq st (hnn st hst))
    rw [← hok]
    simp only
    rw [hmap]
    rcases Nat.eq_zero_or_pos ts.length with h0 | hp
    · rw [if_neg (by omega), if_pos h0]
    · rw [if_pos hp, if_neg (by omega)]

/-- Witness for `robustness_score_formula`: the zero-transform sample,
whose robustness score is defined to be 1. -/
theorem robustness_score_formula_witness :
    (Sample.mk ([] : List (StepResult ℕ)) 1 true).robustnessScore =
      if ([] : List ℕ).length = 0 then 1
      else (((Sample.mk ([] : List (StepResult ℕ)) 1 true).transforms.map
        specContribution).sum) / (([] : List ℕ).length : ℚ) :=
  robustness_score_formula (fun _ b => .ok b) (fun _ => .ok ⟨[], 1, 0, false⟩)
    (fun _ r h => by
      rw [← Except.ok.inj h]
      norm_num)
    [] [] [] ⟨[], 1, true⟩ (by decide)

/-- C9: on any non-empty buffer compared with itself, `computePSNR` hits
MSE = 0 and returns the `Infinity` sentinel, and `computeSSIM` evaluates
to exactly 1 (which the final clamp preserves). -/
theorem psnr_ssim_identity (x : List ℚ) (hx : 0 < x.length) :
    computePSNR x x = none ∧ computeSSIM x x = 1 :=
  ⟨computePSNR_self x, computeSSIM_self x⟩

/-- Witness for `psnr_ssim_identity` at the one-pixel buffer `[3]`. -/
theorem psnr_ssim_identity_witness :
    computePSNR [(3 : ℚ)] [(3 : ℚ)] = none ∧ computeSSIM [(3 : ℚ)] [(3 : ℚ)] = 1 :=
  psnr_ssim_identity [(3 : ℚ)] (by decide)

/-- C10: when the 128-bit header decodes to a valid length L in (0,10000]
but the buffer is shorter than 128 + 8·L bytes, strict extraction still
succeeds (no error, no length recovery): bits past the end of the buffer
read as 0, the message has exactly L characters, and every character
whose bits lie entirely past the end is NUL. -/
theorem extract_short_buffer (data : List ℕ) (L : ℕ)
    (hparse : parseIntJS (binaryToString (extractBitsRange data 0 128)) = some (L : ℤ))
    (hpos : 0 < L) (hmax : L ≤ 10000) (hshort : data.length < 128 + 8 * L) :
    ∃ r, extractMessage data false = .ok r ∧ r.message.length = L ∧
      (∀ j, j < L → data.length ≤ 128 + 8 * j → r.message.getD j 0 = 0) ∧
      r.recoveryScore = 1 := by
  refine ⟨extractBody data L false, extractMessage_valid data L false hparse hpos hmax,
    ?_, ?_, ?_⟩
  · rw [extractBody_strict]
    exact binaryToString_length_mul8 L _ (extractBitsRange_length data 128 (L * 8))
  · intro j hj hoob
    rw [extractBody_strict]
    show (binaryToString (extractBitsRange data 128 (L * 8))).getD j 0 = 0
    rw [binaryToString_getD j _ L (extractBitsRange_length data 128 (L * 8)) hj]
    apply bitsToNat_all_false
    intro b hb
    have hb2 : b ∈ (extractBitsRange data 128 (L * 8)).drop (j * 8) :=
      List.take_subset _ _ hb
    rw [List.mem_iff_getElem] at hb2
    obtain ⟨k, hk, hbval⟩ := hb2
    rw [← hbval, List.getElem_drop, extractBitsRange_getElem]
    exact readBit_oob data _ (by omega)
  · rw [extractBody_strict]

/-- Witness for `extract_short_buffer`: a 128-byte buffer (header only)
whose header decodes to length 100; all 100 characters read as NUL. -/
theorem extract_short_buffer_witness :
    ∃ r, extractMessage
      ((stringToBinary (List.replicate 13 48 ++ [49, 48, 48])).map
        (fun b => cond b 1 0)) false = .ok r ∧
      r.message.length = 100 ∧
      (∀ j, j < 100 →
        ((stringToBinary (List.replicate 13 48 ++ [49, 48, 48])).map
          (fun b => cond b 1 0)).length ≤ 128 + 8 * j →
        r.message.getD j 0 = 0) ∧
      r.recoveryScore = 1 :=
  extract_short_buffer _ 100 (by decide) (by decide) (by decide) (by decide)

/-- C6 (amended): tolerant extraction always reports a nonnegative
recovery score, and the score is ≤ 1 whenever the returned message's
printable ratio falls in the high (≥ 0.9) or low (< 0.5) branch; the
middle branch is not clamped (see the counterexample, where it reaches
32/25). -/
theorem tolerant_score_shape (data : List ℕ) (r : ExtractResult)
    (hok : extractMessage data true = .ok r) :
    0 ≤ r.recoveryScore ∧
    (9/10 ≤ printableScoreOf r.message → r.recoveryScore ≤ 1) ∧
    (printableScoreOf r.message < 1/2 → r.recoveryScore ≤ 1) := by
  obtain ⟨L, hL⟩ := extractMessage_tolerant_ok data
  rw [hL] at hok
  have hr : extractBody data L true = r := Except.ok.inj hok
  have hsc : r.recoveryScore = recoveryScoreOf r.message := by
    rw [← hr]
    exact extractBody_tolerant_score data L
  rw [hsc]
  exact ⟨recoveryScoreOf_nonneg _, recoveryScoreOf_le_one_high _, recoveryScoreOf_le_one_low _⟩

/-- Witness for `tolerant_score_shape`: a 128-byte buffer whose header
decodes to length 1; the NUL body character is recovered as a space and
scored 1/30. -/
theorem tolerant_score_shape_witness :
    0 ≤ (ExtractResult.mk [32] (1/30) 8 true).recoveryScore ∧
    (9/10 ≤ printableScoreOf (ExtractResult.mk [32] (1/30) 8 true).message →
      (ExtractResult.mk [32] (1/30) 8 true).recoveryScore ≤ 1) ∧
    (printableScoreOf (ExtractResult.mk [32] (1/30) 8 true).message < 1/2 →
      (ExtractResult.mk [32] (1/30) 8 true).recoveryScore ≤ 1) :=
  tolerant_score_shape
    ((stringToBinary (List.replicate 15 48 ++ [49])).map (fun b => cond b 1 0))
    ⟨[32], 1/30, 8, true⟩
    (by
      rw [extractMessage_valid _ 1 true (by decide) (by decide) (by decide),
        extractBody_tolerant_corrupt _ 1 [0] [32] (by decide) (by decide) (by decide)
          (by norm_num [show printableCount [0] = 0 from by decide]) (by decide)]
      have h130 : recoveryScoreOf [32] = 1/30 := by
        rw [recoveryScoreOf_perfect_short [32] (by decide) (by decide) (by decide)]
        norm_num
      rw [h130])

/-- The buffer driving the C6 counterexample: a valid header declaring 60
characters followed by a 60-character body that is 80% printable (48 'A's
and 12 SOH control characters), written one payload bit per byte. -/
def c6Buf : List ℕ :=
  (stringToBinary ((List.replicate 14 48 ++ [54, 48]) ++
    (List.replicate 48 65 ++ List.replicate 12 1))).map (fun b => cond b 1 0)

/-- C6 counterexample: on `c6Buf` tolerant extraction takes the middle
scoring branch (printable ratio 0.8) and returns recoveryScore
0.8·0.6 + (60/30)·0.4 = 32/25 > 1 — the score is not clamped to [0,1]. -/
theorem tolerant_score_shape_cex :
    extractMessage c6Buf true =
      .ok ⟨List.replicate 48 65 ++ List.replicate 12 1, 32/25, 480, false⟩ ∧
    ¬((32 : ℚ)/25 ≤ 1) := by
  constructor
  · rw [extractMessage_valid c6Buf 60 true (by decide) (by decide) (by decide),
      extractBody_tolerant_clean c6Buf 60 (List.replicate 48 65 ++ List.replicate 12 1)
        (by decide)
        (by
          norm_num [show printableCount (List.replicate 48 65 ++ List.replicate 12 1) = 48
              from by decide,
            show (List.replicate 48 (65:ℕ) ++ List.replicate 12 (1:ℕ)).length = 60
              from by decide])]
    have hps : printableScoreOf (List.replicate 48 65 ++ List.replicate 12 1) = 4/5 := by
      unfold printableScoreOf
      rw [if_pos (by decide)]
      norm_num [show printableCount (List.replicate 48 65 ++ List.replicate 12 1) = 48
          from by decide,
        show (List.replicate 48 (65:ℕ) ++ List.replicate 12 (1:ℕ)).length = 60
          from by decide]
    have hscore : recoveryScoreOf (List.replicate 48 65 ++ List.replicate 12 1) = 32/25 := by
      simp only [recoveryScoreOf, hps]
      rw [if_neg (by norm_num), if_pos (by norm_num)]
      rw [show ((List.replicate 48 (65:ℕ) ++ List.replicate 12 (1:ℕ)).length : ℚ) = 60
          from by
        norm_num [show (List.replicate 48 (65:ℕ) ++ List.replicate 12 (1:ℕ)).length = 60
          from by decide]]
      norm_num
    rw [hscore]
  · norm_num

/-- C7 (amended): the rate-0 bit-corruption transform is the identity on
the raw stego buffer, and tolerant extraction afterwards returns the
original message with recoveryScore 1 provided the message is entirely
printable ASCII and at least 30 characters long (shorter messages score
len/30 < 1; see the counterexample). -/
theorem corruption_rate_zero_perfect (data m : List ℕ) (rand : List (ℕ × ℕ))
    (hpr : ∀ c ∈ m, 32 ≤ c ∧ c ≤ 126) (hmax : m.length ≤ 10000) (h30 : 30 ≤ m.length)
    (hcap : 128 + 8 * m.length ≤ data.length) :
    applyBitCorruption (embedStego data m) 0 rand = embedStego data m ∧
    extractMessage (applyBitCorruption (embedStego data m) 0 rand) true =
      .ok ⟨m, 1, m.length * 8, false⟩ := by
  have h256 : ∀ c ∈ m, c < 256 := fun c hc => by
    have := hpr c hc
    omega
  have hpos : 1 ≤ m.length := by omega
  refine ⟨applyBitCorruption_zero _ _, ?_⟩
  rw [applyBitCorruption_zero]
  obtain ⟨hex, hbody⟩ := extract_stego_core data m h256 hpos hmax hcap true
  rw [hex, extractBody_tolerant_perfect (embedStego data m) m.length m hbody hpr h30]

/-- Witness for `corruption_rate_zero_perfect`: thirty 'A's in a 368-byte
cover survive a rate-0 corruption with score exactly 1. -/
theorem corruption_rate_zero_perfect_witness :
    applyBitCorruption (embedStego (List.replicate 368 0) (List.replicate 30 65)) 0 [] =
      embedStego (List.replicate 368 0) (List.replicate 30 65) ∧
    extractMessage (applyBitCorruption (embedStego (List.replicate 368 0)
      (List.replicate 30 65)) 0 []) true =
      .ok ⟨List.replicate 30 65, 1, (List.replicate 30 (65:ℕ)).length * 8, false⟩ :=
  corruption_rate_zero_perfect (List.replicate 368 0) (List.replicate 30 65) []
    (by decide) (by decide) (by decide) (by decide)

/-- C7 counterexample: rate-0 corruption leaves the "HELLO" stego buffer
unchanged and tolerant extraction returns "HELLO" intact, yet its
recoveryScore is 5/30 = 1/6, not 1.0 — the high branch scores the
minimum of 1 and len/max(len,30), which is below 1 for messages shorter
than 30 characters. -/
theorem corruption_rate_zero_perfect_cex :
    applyBitCorruption (embedStego (List.replicate 168 0) [72, 69, 76, 76, 79]) 0 [] =
      embedStego (List.replicate 168 0) [72, 69, 76, 76, 79] ∧
    extractMessage (embedStego (List.replicate 168 0) [72, 69, 76, 76, 79]) true =
      .ok ⟨[72, 69, 76, 76, 79], 1/6, 40, false⟩ ∧
    ¬((1 : ℚ)/6 = 1) := by
  refine ⟨applyBitCorruption_zero _ _, ?_, by norm_num⟩
  rw [extractMessage_valid _ 5 true (by decide) (by decide) (by decide),
    extractBody_tolerant_clean _ 5 [72, 69, 76, 76, 79] (by decide)
      (by norm_num [show printableCount [72, 69, 76, 76, 79] = 5 from by decide,
        show ([72, 69, 76, 76, 79] : List ℕ).length = 5 from by decide])]
  have hscore : recoveryScoreOf [72, 69, 76, 76, 79] = 1/6 := by
    rw [recoveryScoreOf_perfect_short [72, 69, 76, 76, 79] (by decide) (by decide) (by decide)]
    norm_num
  rw [hscore]

end Stego
